import Mathlib

/-!
Verification development for the runtime environment-variable substitution
script `env.sh` of the Vite-Dynamic-Environment-Variables repository
(the script is reproduced verbatim in `src/README.md`, lines 204-241).

The script is:

  set -e
  : "${APP_PREFIX:?...}"
  : "${ASSET_DIRS:?...}"
  for dir in $ASSET_DIRS; do
    if [ ! -d "$dir" ]; then
      echo "Warning: directory '$dir' not found, skipping."
      continue
    fi
    echo "Scanning directory: $dir"
    env | grep "^${APP_PREFIX}" | while IFS='=' read -r key value; do
      echo "  - Replacing ${key} -> ${value}"
      find "$dir" -type f -exec sed -i "s|${key}|${value}|g" {} +
    done
  done

Strings are modelled as `List Char`.  All string machinery (prefix test,
substring test, line splitting, field splitting, literal global replacement,
and a fragment of POSIX basic-regular-expression matching) is defined from
scratch so that every definition is executable and its semantics is visible.
-/

set_option maxHeartbeats 1000000

abbrev Str : Type := List Char

/-- Decidable literal prefix test: `isPre p s = true` iff `p` is an initial
segment of `s` (byte-for-byte, case-sensitive). -/
def isPre (p s : Str) : Bool :=
  match p, s with
  | [], _ => true
  | _ :: _, [] => false
  | a :: ps, b :: ss => a == b && isPre ps ss

/-- Decidable literal substring (infix) test: `isSub k s = true` iff `k`
occurs contiguously somewhere in `s`. -/
def isSub (k s : Str) : Bool :=
  match s with
  | [] => isPre k []
  | _ :: rest => isPre k s || isSub k rest

/-- Literal global substring replacement, the semantics of
`sed -i "s|key|value|g"` for a pattern without regex metacharacters:
scan left to right; at each position, if `k` matches, emit `v` and continue
after the match (the replacement text is not rescanned); otherwise keep the
character.  An empty `k` never matches (a degenerate guard; environment
variable names are nonempty). -/
def replaceAll (k v : Str) : Str → Str
  | [] => []
  | c :: rest =>
    if isPre k (c :: rest) && !k.isEmpty then
      v ++ replaceAll k v (rest.drop (k.length - 1))
    else
      c :: replaceAll k v rest
termination_by s => s.length
decreasing_by
  · simp only [List.length_drop, List.length_cons]; omega
  · simp only [List.length_cons]; omega

theorem replaceAll_nil (k v : Str) : replaceAll k v [] = [] := by
  rw [replaceAll]

theorem replaceAll_cons_pos (k v : Str) (c : Char) (rest : Str)
    (h : isPre k (c :: rest) && !k.isEmpty) :
    replaceAll k v (c :: rest) = v ++ replaceAll k v (rest.drop (k.length - 1)) := by
  rw [replaceAll, if_pos h]

theorem replaceAll_cons_neg (k v : Str) (c : Char) (rest : Str)
    (h : ¬ (isPre k (c :: rest) && !k.isEmpty)) :
    replaceAll k v (c :: rest) = c :: replaceAll k v rest := by
  rw [replaceAll, if_neg h]

-- Basic facts about isPre / isSub --------------------------------------------

theorem isPre_nil_left (s : Str) : isPre [] s = true := by
  cases s <;> rfl

theorem isPre_cons_nil (a : Char) (p : Str) : isPre (a :: p) [] = false := rfl

theorem isPre_cons_cons (a b : Char) (p s : Str) :
    isPre (a :: p) (b :: s) = (a == b && isPre p s) := rfl

/-- A prefix of `s` is also a prefix of `s ++ t`. -/
theorem isPre_append_right (p s t : Str) (h : isPre p s = true) :
    isPre p (s ++ t) = true := by
  induction p generalizing s with
  | nil => exact isPre_nil_left _
  | cons a ps ih =>
    cases s with
    | nil => exact absurd h (by simp [isPre])
    | cons b ss =>
      simp only [List.cons_append, isPre_cons_cons, Bool.and_eq_true,
        beq_iff_eq] at h ⊢
      exact ⟨h.1, ih ss h.2⟩

/-- `isPre p (p ++ t)` always holds. -/
theorem isPre_self_append (p t : Str) : isPre p (p ++ t) = true := by
  induction p with
  | nil => exact isPre_nil_left _
  | cons a ps ih => simp [isPre_cons_cons, ih]

/-- If `p` is a prefix of `s` then `s = p ++ (drop of s)`. -/
theorem isPre_eq_append (p s : Str) (h : isPre p s = true) :
    s = p ++ s.drop p.length := by
  induction p generalizing s with
  | nil => simp
  | cons a ps ih =>
    cases s with
    | nil => exact absurd h (by simp [isPre])
    | cons b ss =>
      simp only [isPre_cons_cons, Bool.and_eq_true, beq_iff_eq] at h
      simpa [h.1] using congrArg (b :: ·) (ih ss h.2)

theorem isSub_nil (k : Str) : isSub k [] = isPre k [] := rfl

theorem isSub_cons (k : Str) (c : Char) (rest : Str) :
    isSub k (c :: rest) = (isPre k (c :: rest) || isSub k rest) := rfl

/-- A prefix is in particular a substring. -/
theorem isSub_of_isPre (k s : Str) (h : isPre k s = true) : isSub k s = true := by
  cases s with
  | nil => simpa [isSub_nil] using h
  | cons c rest => simp [isSub_cons, h]

/-- If `k` is a substring of `s` it is a substring of `c :: s`. -/
theorem isSub_cons_of_isSub (k : Str) (c : Char) (s : Str)
    (h : isSub k s = true) : isSub k (c :: s) = true := by
  simp [isSub_cons, h]

/-- Transitivity: if `w` is a prefix of `s` and `p` is a prefix of `w`
then `p` is a prefix of `s`. -/
theorem isPre_trans (p w s : Str) (hw : isPre w s = true)
    (hp : isPre p w = true) : isPre p s = true := by
  induction p generalizing w s with
  | nil => exact isPre_nil_left _
  | cons a ps ih =>
    cases w with
    | nil => simp [isPre] at hp
    | cons b ws =>
      cases s with
      | nil => simp [isPre] at hw
      | cons c ss =>
        simp only [isPre_cons_cons, Bool.and_eq_true, beq_iff_eq] at hw hp ⊢
        exact ⟨hp.1.trans hw.1, ih ws ss hw.2 hp.2⟩

/-- A substring of a prefix of `s` is a substring of `s`. -/
theorem isSub_of_isSub_isPre (k w s : Str) (hw : isPre w s = true)
    (h : isSub k w = true) : isSub k s = true := by
  induction w generalizing s with
  | nil =>
    cases k with
    | nil => exact isSub_of_isPre _ _ (isPre_nil_left s)
    | cons a ps => simp [isSub, isPre] at h
  | cons b ws ih =>
    cases s with
    | nil => simp [isPre] at hw
    | cons c ss =>
      simp only [isPre_cons_cons, Bool.and_eq_true, beq_iff_eq] at hw
      rw [isSub_cons] at h
      rcases Bool.or_eq_true_iff.mp h with hpre | hsub
      · have : isPre k (c :: ss) = true :=
          isPre_trans k (b :: ws) (c :: ss)
            (by simp [isPre_cons_cons, hw.1, hw.2]) hpre
        simp [isSub_cons, this]
      · exact isSub_cons_of_isSub _ _ _ (ih ss hw.2 hsub)

-- Interaction of replaceAll with appends --------------------------------------

/-- For a nonempty pattern, `(c :: rest).drop k.length = rest.drop (k.length - 1)`. -/
theorem drop_len_cons (k : Str) (hk : k ≠ []) (c : Char) (rest : Str) :
    (c :: rest).drop k.length = rest.drop (k.length - 1) := by
  cases k with
  | nil => exact absurd rfl hk
  | cons a ks => simp [List.length_cons]

/-- Replacement fired at the front: `replaceAll k v (k ++ u) = v ++ replaceAll k v u`. -/
theorem replaceAll_self_append (k v u : Str) (hk : k ≠ []) :
    replaceAll k v (k ++ u) = v ++ replaceAll k v u := by
  cases k with
  | nil => exact absurd rfl hk
  | cons a ks =>
    have h1 : isPre (a :: ks) (a :: (ks ++ u)) = true := isPre_self_append (a :: ks) u
    rw [List.cons_append, replaceAll_cons_pos _ _ _ _ (by rw [h1]; rfl)]
    congr 2
    simp [List.length_cons, List.drop_left]

/-- Walk-through: if no character of `w` occurs in the (nonempty) pattern `k`,
the scan passes over `w` without firing, so
`replaceAll k v (w ++ t) = w ++ replaceAll k v t`. -/
theorem replaceAll_append_left (k v w t : Str) (hk : k ≠ [])
    (hd : ∀ x ∈ w, x ∉ k) : replaceAll k v (w ++ t) = w ++ replaceAll k v t := by
  induction w with
  | nil => rfl
  | cons c ws ih =>
    rw [List.cons_append]
    cases k with
    | nil => exact absurd rfl hk
    | cons a ks =>
      have hca : (a == c) = false := by
        have hmem : c ∉ a :: ks := hd c (by simp)
        refine beq_eq_false_iff_ne.mpr (fun h => hmem ?_)
        rw [← h]
        exact List.mem_cons_self a ks
      rw [replaceAll_cons_neg _ _ _ _ (by simp [isPre_cons_cons, hca])]
      rw [ih (fun x hx => hd x (by simp [hx]))]
      rfl

/-- No new matches: replacing `k` by a nonempty `v` whose characters avoid the
nonempty probe `p` cannot create a match of `p` at the front of the string. -/
theorem replaceAll_isPre_false (k v : Str) (hv : v ≠ []) :
    ∀ n s p, s.length ≤ n → p ≠ [] → (∀ x ∈ p, x ∉ v) →
      isPre p s = false → isPre p (replaceAll k v s) = false := by
  intro n
  induction n with
  | zero =>
    intro s p hs hp _ _
    have : s = [] := List.length_eq_zero.mp (Nat.le_zero.mp hs)
    subst this
    rw [replaceAll_nil]
    cases p with
    | nil => exact absurd rfl hp
    | cons a ps => rfl
  | succ n ih =>
    intro s p hs hp hdisj hpre
    cases s with
    | nil =>
      rw [replaceAll_nil]
      cases p with
      | nil => exact absurd rfl hp
      | cons a ps => rfl
    | cons c rest =>
      by_cases hcond : (isPre k (c :: rest) && !k.isEmpty) = true
      · rw [replaceAll_cons_pos _ _ _ _ hcond]
        cases v with
        | nil => exact absurd rfl hv
        | cons d vs =>
          cases p with
          | nil => exact absurd rfl hp
          | cons a ps =>
            have had : (a == d) = false := by
              have hmem : a ∉ d :: vs := hdisj a (by simp)
              exact beq_eq_false_iff_ne.mpr
                (fun h => hmem (by rw [h]; exact List.mem_cons_self d vs))
            simp [isPre_cons_cons, had]
      · rw [replaceAll_cons_neg _ _ _ _ hcond]
        cases p with
        | nil => exact absurd rfl hp
        | cons a ps =>
          rw [isPre_cons_cons] at hpre ⊢
          by_cases hac : (a == c) = true
          · rw [hac, Bool.true_and] at hpre ⊢
            cases ps with
            | nil => simp [isPre_nil_left] at hpre
            | cons b ps' =>
              exact ih rest (b :: ps') (Nat.le_of_succ_le_succ hs)
                (by simp) (fun x hx => hdisj x (by simp [List.mem_cons] at hx ⊢; tauto))
                hpre
          · simp [Bool.not_eq_true] at hac
            simp [hac]

/-- Interleave a separator between segments and flatten. -/
def interJoin (sep : Str) (parts : List Str) : Str :=
  (parts.intersperse sep).flatten

theorem interJoin_nil (sep : Str) : interJoin sep [] = [] := rfl

/-- Two substitutions commute when the keys and values are nonempty, the keys
share no character, and each key shares no character with the other
substitution's value.  (These independence conditions are sufficient; the
counterexamples accompanying claim C6 show that dropping them breaks
commutativity even for keys neither of which is a substring of the other.) -/
theorem replaceAll_comm_aux (k1 v1 k2 v2 : Str)
    (hk1 : k1 ≠ []) (hk2 : k2 ≠ []) (hv1 : v1 ≠ []) (hv2 : v2 ≠ [])
    (h12 : ∀ x ∈ k1, x ∉ k2)
    (h2v1 : ∀ x ∈ k2, x ∉ v1)
    (h1v2 : ∀ x ∈ k1, x ∉ v2) :
    ∀ n s, s.length ≤ n →
      replaceAll k2 v2 (replaceAll k1 v1 s) = replaceAll k1 v1 (replaceAll k2 v2 s) := by
  intro n
  induction n with
  | zero =>
    intro s hs
    have : s = [] := List.length_eq_zero.mp (Nat.le_zero.mp hs)
    subst this
    simp only [replaceAll_nil]
  | succ n ih =>
    intro s hs
    cases s with
    | nil => simp only [replaceAll_nil]
    | cons c rest =>
      have hk1e : (!k1.isEmpty) = true := by
        cases k1 with
        | nil => exact absurd rfl hk1
        | cons a ks => rfl
      have hk2e : (!k2.isEmpty) = true := by
        cases k2 with
        | nil => exact absurd rfl hk2
        | cons a ks => rfl
      have hlen : (rest.drop (k1.length - 1)).length ≤ n := by
        have h1 := List.length_drop (k1.length - 1) rest
        have h2 : rest.length ≤ n := Nat.le_of_succ_le_succ hs
        omega
      have hlen2 : (rest.drop (k2.length - 1)).length ≤ n := by
        have h1 := List.length_drop (k2.length - 1) rest
        have h2 : rest.length ≤ n := Nat.le_of_succ_le_succ hs
        omega
      by_cases hpre1 : isPre k1 (c :: rest) = true
      · -- k1 fires at the front; k2 cannot (disjoint characters).
        have hs1 : c :: rest = k1 ++ rest.drop (k1.length - 1) := by
          have := isPre_eq_append k1 (c :: rest) hpre1
          rw [drop_len_cons k1 hk1 c rest] at this
          exact this
        rw [replaceAll_cons_pos k1 v1 c rest (by rw [hpre1, hk1e]; rfl)]
        rw [replaceAll_append_left k2 v2 v1 _ hk2
          (fun x hx hxk => h2v1 x hxk hx)]
        conv_rhs => rw [hs1]
        rw [replaceAll_append_left k2 v2 k1 _ hk2
          (fun x hx hxk => h12 x hx hxk)]
        rw [replaceAll_self_append k1 v1 _ hk1]
        rw [ih _ hlen]
      · by_cases hpre2 : isPre k2 (c :: rest) = true
        · -- Symmetric: k2 fires at the front.
          have hs2 : c :: rest = k2 ++ rest.drop (k2.length - 1) := by
            have := isPre_eq_append k2 (c :: rest) hpre2
            rw [drop_len_cons k2 hk2 c rest] at this
            exact this
          rw [replaceAll_cons_pos k2 v2 c rest (by rw [hpre2, hk2e]; rfl)]
          rw [replaceAll_append_left k1 v1 v2 _ hk1
            (fun x hx hxk => h1v2 x hxk hx)]
          conv_lhs => rw [hs2]
          rw [replaceAll_append_left k1 v1 k2 _ hk1
            (fun x hx hxk => h12 x hxk hx)]
          rw [replaceAll_self_append k2 v2 _ hk2]
          rw [ih _ hlen2]
        · -- Neither key matches at the front; by the no-new-match lemma
          -- neither key matches at the front after the other substitution.
          have h1f : isPre k1 (c :: rest) = false := Bool.eq_false_iff.mpr hpre1
          have h2f : isPre k2 (c :: rest) = false := Bool.eq_false_iff.mpr hpre2
          rw [replaceAll_cons_neg k1 v1 c rest (by rw [h1f]; simp)]
          rw [replaceAll_cons_neg k2 v2 c rest (by rw [h2f]; simp)]
          have h2after : isPre k2 (c :: replaceAll k1 v1 rest) = false := by
            have := replaceAll_isPre_false k1 v1 hv1 (n + 1) (c :: rest) k2 hs hk2
              (fun x hx => h2v1 x hx) h2f
            rw [replaceAll_cons_neg k1 v1 c rest (by rw [h1f]; simp)] at this
            exact this
          have h1after : isPre k1 (c :: replaceAll k2 v2 rest) = false := by
            have := replaceAll_isPre_false k2 v2 hv2 (n + 1) (c :: rest) k1 hs hk1
              (fun x hx => h1v2 x hx) h1f
            rw [replaceAll_cons_neg k2 v2 c rest (by rw [h2f]; simp)] at this
            exact this
          rw [replaceAll_cons_neg k2 v2 c _ (by rw [h2after]; simp)]
          rw [replaceAll_cons_neg k1 v1 c _ (by rw [h1after]; simp)]
          rw [ih _ (Nat.le_of_succ_le_succ hs)]

-- POSIX basic-regular-expression fragment -------------------------------------

/-- BRE metacharacters (the characters that are special in a POSIX basic
regular expression, the pattern language of `grep` and `sed`). -/
def breMeta : List Char := ['.', '*', '[', '\\', '^', '$']

/-- A pattern is plain when it contains no BRE metacharacter; for such
patterns regex matching and literal matching coincide. -/
def plainPat (p : Str) : Prop := ∀ x ∈ p, x ∉ breMeta

instance (p : Str) : Decidable (plainPat p) := by
  unfold plainPat
  infer_instance

/-- Anchored matching of a BRE pattern fragment against the front of a string:
`.` matches any single character, any other character matches itself.  This
models the pattern language of `grep "^PAT"` and `sed "s|PAT|...|g"` for
patterns whose only metacharacter is `.` — enough to exhibit the divergence
between regex matching and the literal matching the specification describes. -/
def breMatchPre (p s : Str) : Bool :=
  match p, s with
  | [], _ => true
  | _ :: _, [] => false
  | a :: ps, b :: ss => (a == '.' || a == b) && breMatchPre ps ss

/-- On metacharacter-free patterns, BRE matching is literal matching. -/
theorem breMatchPre_eq_isPre (p s : Str) (hp : plainPat p) :
    breMatchPre p s = isPre p s := by
  induction p generalizing s with
  | nil => cases s <;> rfl
  | cons a ps ih =>
    cases s with
    | nil => rfl
    | cons b ss =>
      have hdot : (a == '.') = false := by
        have : a ∉ breMeta := hp a (by simp)
        refine beq_eq_false_iff_ne.mpr (fun h => this ?_)
        rw [h]
        simp [breMeta]
      show ((a == '.' || a == b) && breMatchPre ps ss) = (a == b && isPre ps ss)
      rw [hdot, Bool.false_or, ih ss (fun x hx => hp x (by simp [hx]))]

/-- `sed`-style global replacement where the pattern is interpreted as a BRE
fragment (`.` is a wildcard).  This is the faithful semantics of
`sed -i "s|key|value|g"`; by `breReplaceAll_eq_replaceAll` it agrees with the
literal `replaceAll` whenever the key contains no metacharacter. -/
def breReplaceAll (p v : Str) : Str → Str
  | [] => []
  | c :: rest =>
    if breMatchPre p (c :: rest) && !p.isEmpty then
      v ++ breReplaceAll p v (rest.drop (p.length - 1))
    else
      c :: breReplaceAll p v rest
termination_by s => s.length
decreasing_by
  · simp only [List.length_drop, List.length_cons]; omega
  · simp only [List.length_cons]; omega

theorem breReplaceAll_nil (p v : Str) : breReplaceAll p v [] = [] := by
  rw [breReplaceAll]

theorem breReplaceAll_cons (p v : Str) (c : Char) (rest : Str) :
    breReplaceAll p v (c :: rest) =
      if breMatchPre p (c :: rest) && !p.isEmpty then
        v ++ breReplaceAll p v (rest.drop (p.length - 1))
      else
        c :: breReplaceAll p v rest := by
  rw [breReplaceAll]

/-- On metacharacter-free keys, the regex-based `sed` substitution is exactly
the literal substitution. -/
theorem breReplaceAll_eq_replaceAll (p v : Str) (hp : plainPat p) :
    ∀ n s, s.length ≤ n → breReplaceAll p v s = replaceAll p v s := by
  intro n
  induction n with
  | zero =>
    intro s hs
    have : s = [] := List.length_eq_zero.mp (Nat.le_zero.mp hs)
    subst this
    rw [breReplaceAll_nil, replaceAll_nil]
  | succ n ih =>
    intro s hs
    cases s with
    | nil => rw [breReplaceAll_nil, replaceAll_nil]
    | cons c rest =>
      rw [breReplaceAll_cons, breMatchPre_eq_isPre _ _ hp]
      by_cases hcond : (isPre p (c :: rest) && !p.isEmpty) = true
      · rw [if_pos hcond, replaceAll_cons_pos _ _ _ _ hcond]
        have hlen : (rest.drop (p.length - 1)).length ≤ n := by
          have h1 := List.length_drop (p.length - 1) rest
          have h2 : rest.length ≤ n := Nat.le_of_succ_le_succ hs
          omega
        rw [ih _ hlen]
      · rw [if_neg hcond, replaceAll_cons_neg _ _ _ _ hcond]
        rw [ih _ (Nat.le_of_succ_le_succ hs)]

-- Text splitting --------------------------------------------------------------

/-- Split a character stream into newline-terminated lines, as the
`grep`/`read` pipeline consumes the output of `env`. -/
def splitLines : Str → List Str
  | [] => [[]]
  | c :: rest =>
    if c = '\n' then [] :: splitLines rest
    else
      match splitLines rest with
      | [] => [[c]]
      | l :: ls => (c :: l) :: ls

theorem splitLines_nil : splitLines [] = [[]] := rfl

/-- `splitLines` always produces at least one (possibly empty) line. -/
theorem splitLines_ne_nil (s : Str) : splitLines s ≠ [] := by
  induction s with
  | nil => simp [splitLines]
  | cons c rest ih =>
    by_cases h : c = '\n'
    · simp [splitLines, h]
    · rcases hrest : splitLines rest with _ | ⟨l, ls⟩
      · exact absurd hrest ih
      · simp [splitLines, h, hrest]

/-- Splitting after a newline-free chunk: the chunk becomes the first line. -/
theorem splitLines_append (x y : Str) (hx : '\n' ∉ x) :
    splitLines (x ++ '\n' :: y) = x :: splitLines y := by
  induction x with
  | nil => simp [splitLines]
  | cons c xs ih =>
    have hc : ¬ c = '\n' := fun h => hx (by simp [h])
    have hxs : '\n' ∉ xs := fun h => hx (by simp [h])
    rw [List.cons_append]
    rcases hrest : splitLines (xs ++ '\n' :: y) with _ | ⟨l, ls⟩
    · exact absurd hrest (splitLines_ne_nil _)
    · have := ih hxs
      rw [hrest] at this
      simp only [splitLines, if_neg hc, hrest]
      rw [List.cons.injEq] at this ⊢
      exact ⟨by rw [this.1], this.2⟩

/-- A newline-free string is a single line. -/
theorem splitLines_no_newline (x : Str) (hx : '\n' ∉ x) :
    splitLines x = [x] := by
  induction x with
  | nil => rfl
  | cons c xs ih =>
    have hc : ¬ c = '\n' := fun h => hx (by simp [h])
    have hxs : '\n' ∉ xs := fun h => hx (by simp [h])
    simp [splitLines, hc, ih hxs]

/-- POSIX field splitting on default IFS whitespace (space, tab, newline):
used by the unquoted expansion `for dir in $ASSET_DIRS`.  Runs of whitespace
separate fields; empty fields do not arise. -/
def wsChar (c : Char) : Bool := c = ' ' || c = '\t' || c = '\n'

def splitWsAux : Str → Str → List Str
  | [], acc => if acc.isEmpty then [] else [acc.reverse]
  | c :: rest, acc =>
    if wsChar c then
      if acc.isEmpty then splitWsAux rest []
      else acc.reverse :: splitWsAux rest []
    else splitWsAux rest (c :: acc)

/-- Field-split a configuration string on whitespace, as the shell expands
`$ASSET_DIRS`. -/
def splitWs (s : Str) : List Str := splitWsAux s []

/-- Every field produced by field splitting is free of whitespace characters
(provided the accumulator only holds non-whitespace characters). -/
theorem splitWsAux_no_ws (s : Str) :
    ∀ acc, (∀ x ∈ acc, wsChar x = false) →
      ∀ r ∈ splitWsAux s acc, ∀ x ∈ r, wsChar x = false := by
  induction s with
  | nil =>
    intro acc hacc r hr x hx
    by_cases h : acc.isEmpty
    · simp [splitWsAux, h] at hr
    · simp only [splitWsAux, if_neg h] at hr
      simp at hr
      subst hr
      exact hacc x (by simpa using hx)
  | cons c rest ih =>
    intro acc hacc r hr x hx
    by_cases hws : wsChar c = true
    · by_cases hacce : acc.isEmpty
      · simp only [splitWsAux, if_pos hws, if_pos hacce] at hr
        exact ih [] (by simp) r hr x hx
      · simp only [splitWsAux, if_pos hws, if_neg hacce] at hr
        rcases List.mem_cons.mp hr with h | h
        · subst h
          exact hacc x (by simpa using hx)
        · exact ih [] (by simp) r h x hx
    · simp only [splitWsAux, if_neg hws] at hr
      refine ih (c :: acc) ?_ r hr x hx
      intro y hy
      rcases List.mem_cons.mp hy with h | h
      · subst h; exact Bool.eq_false_iff.mpr hws
      · exact hacc y h

/-- Fields never contain whitespace. -/
theorem splitWs_no_ws (s : Str) : ∀ r ∈ splitWs s, ∀ x ∈ r, wsChar x = false :=
  splitWsAux_no_ws s [] (by simp)

/-- Scanning a whitespace-free chunk accumulates it (reversed). -/
theorem splitWsAux_chunk (a : Str) (ha : ∀ x ∈ a, wsChar x = false) :
    ∀ rest acc, splitWsAux (a ++ rest) acc = splitWsAux rest (a.reverse ++ acc) := by
  induction a with
  | nil => intro rest acc; simp
  | cons c asl ih =>
    intro rest acc
    have hc : wsChar c = false := ha c (by simp)
    rw [List.cons_append]
    simp only [splitWsAux, hc]
    rw [if_neg (by simp)]
    rw [ih (fun x hx => ha x (by simp [hx])) rest (c :: acc)]
    simp

/-- A whitespace-free nonempty string is a single field. -/
theorem splitWs_single (b : Str) (hb : b ≠ []) (hbw : ∀ x ∈ b, wsChar x = false) :
    splitWs b = [b] := by
  have := splitWsAux_chunk b hbw [] []
  rw [List.append_nil] at this
  unfold splitWs
  rw [this]
  simp only [splitWsAux, List.append_nil]
  rw [if_neg (by simpa using fun h => hb (by simpa using congrArg List.reverse h))]
  simp

/-- A configured path containing one space is split into two separate fields. -/
theorem splitWs_space (a b : Str) (ha : a ≠ []) (hb : b ≠ [])
    (haw : ∀ x ∈ a, wsChar x = false) (hbw : ∀ x ∈ b, wsChar x = false) :
    splitWs (a ++ ' ' :: b) = [a, b] := by
  unfold splitWs
  rw [splitWsAux_chunk a haw (' ' :: b) []]
  simp only [splitWsAux]
  rw [if_pos (by simp [wsChar])]
  rw [if_neg (by simpa using fun h => ha (by simpa using congrArg List.reverse h)),
    List.append_nil, List.reverse_reverse]
  have := splitWs_single b hb hbw
  unfold splitWs at this
  rw [this]

-- Parsing substitution pairs from the environment listing ----------------------

/-- One environment variable: a name and a value.  `env` prints them as
`name=value` followed by a newline; a value may itself contain newlines,
which `env` prints verbatim. -/
structure EnvVar where
  name : Str
  value : Str
deriving DecidableEq

/-- The byte stream produced by `env`. -/
def envText (env : List EnvVar) : Str :=
  (env.map (fun e => e.name ++ '=' :: e.value ++ ['\n'])).flatten

/-- `IFS='=' read -r key value`: split a line at its first `=`; the key is
everything before it, the value everything after (later `=` signs included).
A line without `=` yields the whole line as key and an empty value. -/
def splitFirstEq (l : Str) : Str × Str :=
  (l.takeWhile (fun c => c != '='), (l.dropWhile (fun c => c != '=')).drop 1)

/-- The substitution pairs one execution of the pipeline
`env | grep "^${APP_PREFIX}" | while IFS='=' read -r key value` yields:
all newline-separated lines of the `env` output that match the anchored
pattern of the prefix, each split at its first `=`. -/
def pairsOf (pfx : Str) (env : List EnvVar) : List (Str × Str) :=
  ((splitLines (envText env)).filter (fun l => breMatchPre pfx l)).map splitFirstEq

-- Operational model of env.sh --------------------------------------------------

/-- A regular file: a path, its content, and whether `sed -i` can read and
rewrite it (`ok = false` models a permission or I/O failure). -/
structure FileEnt where
  path : Str
  content : Str
  ok : Bool
deriving DecidableEq

/-- A directory that exists on disk, with the regular files found recursively
under it by `find "$dir" -type f`. -/
structure DirEnt where
  dname : Str
  files : List FileEnt
deriving DecidableEq

/-- The file system: the directories that exist.  A configured root that is
not listed here fails the `[ ! -d "$dir" ]` test. -/
abbrev FSys : Type := List DirEnt

def findDir : FSys → Str → Option DirEnt
  | [], _ => none
  | e :: es, d => if e.dname == d then some e else findDir es d

/-- Replace the files of the (first) directory named `d`. -/
def updateDir : FSys → Str → List FileEnt → FSys
  | [], _, _ => []
  | e :: es, d, files =>
    if e.dname == d then { e with files := files } :: es
    else e :: updateDir es d files

/-- Exit disposition of the script. -/
inductive ExitKind
  | ok
  | configError
  | ioError
deriving DecidableEq

/-- Diagnostic lines the script can emit (stdout).  The apostrophes of the
warning text are built with `Char.ofNat 39`. -/
def warnLine (d : Str) : Str :=
  "Warning: directory ".toList ++ [Char.ofNat 39] ++ d ++ [Char.ofNat 39]
    ++ " not found, skipping.".toList

def scanLine (d : Str) : Str :=
  "Scanning directory: ".toList ++ d

def replLine (k v : Str) : Str :=
  "  • Replacing ".toList ++ k ++ " → ".toList ++ v

/-- One `sed -i "s|k|v|g"` pass over every file of a directory (the
`find "$dir" -type f -exec sed -i ... {} +` command).  If some file cannot be
processed the pass fails, reporting that file's path; otherwise every file's
content is rewritten by the (regex-interpreted) global substitution. -/
def firstBad : List FileEnt → Option FileEnt
  | [] => none
  | f :: fsl => if f.ok then firstBad fsl else some f

def sedPass (k v : Str) (files : List FileEnt) : Except Str (List FileEnt) :=
  match firstBad files with
  | some f => .error f.path
  | none => .ok (files.map (fun f => { f with content := breReplaceAll k v f.content }))

/-- The inner `while` loop over the matching key/value pairs for one
directory: echo the pair, run the sed pass, and stop at the first failure
(`set -e`). Returns the final files, the log emitted, and whether it failed. -/
def runPairs : List (Str × Str) → List FileEnt → List Str →
    (List FileEnt × List Str × Bool)
  | [], files, log => (files, log, false)
  | (k, v) :: rest, files, log =>
    let log2 := log ++ [replLine k v]
    match sedPass k v files with
    | .error _ => (files, log2, true)
    | .ok files2 => runPairs rest files2 log2

/-- Full state threaded through the run: the file system, the log, the number
of times the `env | grep` enumeration pipeline has been executed, and the
exit disposition. -/
structure St where
  fs : FSys
  log : List Str
  envReads : Nat
  exit : ExitKind
deriving DecidableEq

/-- The outer `for dir in $ASSET_DIRS` loop.  A missing directory only gets a
warning and is skipped; an existing one is scanned: the environment listing
is enumerated (once per existing directory) and every matching pair is
applied to every file.  Any I/O failure aborts the whole run (`set -e`). -/
def runRoots (pfx : Str) (env : List EnvVar) : List Str → St → St
  | [], st => st
  | d :: rest, st =>
    match findDir st.fs d with
    | none => runRoots pfx env rest { st with log := st.log ++ [warnLine d] }
    | some de =>
      let st1 : St := { st with log := st.log ++ [scanLine d],
                                envReads := st.envReads + 1 }
      match runPairs (pairsOf pfx env) de.files st1.log with
      | (files2, log2, true) =>
        { st1 with log := log2, fs := updateDir st1.fs d files2,
                   exit := ExitKind.ioError }
      | (files2, log2, false) =>
        runRoots pfx env rest
          { st1 with log := log2, fs := updateDir st1.fs d files2 }

/-- The two control variables of the script, as read from its invocation
environment; `none` models an unset variable. -/
structure Cfg where
  appPfx : Option Str
  assetDirs : Option Str
deriving DecidableEq

/-- The whole script.  `: "${APP_PREFIX:?...}"` and `: "${ASSET_DIRS:?...}"`
abort with a nonzero status when the variable is unset or empty, before
anything else runs; otherwise the roots are the whitespace-split fields of
`ASSET_DIRS` and the outer loop processes them in order. -/
def run (cfg : Cfg) (env : List EnvVar) (fs : FSys) : St :=
  match cfg.appPfx with
  | none => { fs := fs, log := [], envReads := 0, exit := ExitKind.configError }
  | some p =>
    if p = [] then { fs := fs, log := [], envReads := 0, exit := ExitKind.configError }
    else
      match cfg.assetDirs with
      | none => { fs := fs, log := [], envReads := 0, exit := ExitKind.configError }
      | some ds =>
        if ds = [] then
          { fs := fs, log := [], envReads := 0, exit := ExitKind.configError }
        else
          runRoots p env (splitWs ds)
            { fs := fs, log := [], envReads := 0, exit := ExitKind.ok }

-- Helper notions about the run -------------------------------------------------

/-- Net effect of applying every pair, in order, to one file's content. -/
def applyPairs (pairs : List (Str × Str)) (c : Str) : Str :=
  pairs.foldl (fun acc p => breReplaceAll p.1 p.2 acc) c

/-- Net effect of the inner loop on a directory's files. -/
def substFiles (pairs : List (Str × Str)) (files : List FileEnt) : List FileEnt :=
  files.map (fun f => { f with content := applyPairs pairs f.content })

/-- Every file of every existing directory is readable and writable. -/
def allOk (fs : FSys) : Prop := ∀ de ∈ fs, ∀ f ∈ de.files, f.ok = true

instance (fs : FSys) : Decidable (allOk fs) := by
  unfold allOk
  infer_instance

theorem applyPairs_nil (c : Str) : applyPairs [] c = c := rfl

theorem applyPairs_cons (k v : Str) (rest : List (Str × Str)) (c : Str) :
    applyPairs ((k, v) :: rest) c = applyPairs rest (breReplaceAll k v c) := rfl

theorem substFiles_nil_pairs (files : List FileEnt) :
    substFiles [] files = files := by
  unfold substFiles
  induction files with
  | nil => rfl
  | cons f fsl ih => simp [ih, applyPairs_nil]

/-- On all-ok files there is no unprocessable file. -/
theorem firstBad_eq_none (files : List FileEnt)
    (h : ∀ f ∈ files, f.ok = true) : firstBad files = none := by
  induction files with
  | nil => rfl
  | cons f fsl ih =>
    unfold firstBad
    rw [if_pos (h f (by simp))]
    exact ih (fun g hg => h g (by simp [hg]))

/-- A list containing a bad file has a first bad file. -/
theorem firstBad_isSome (files : List FileEnt) (f : FileEnt)
    (hf : f ∈ files) (hbad : f.ok = false) : (firstBad files).isSome = true := by
  induction files with
  | nil => simp at hf
  | cons g fsl ih =>
    unfold firstBad
    rcases List.mem_cons.mp hf with h | h
    · subst h
      rw [if_neg (by simp [hbad])]
      rfl
    · by_cases hg : g.ok = true
      · rw [if_pos hg]; exact ih h
      · rw [if_neg hg]; rfl

/-- On all-ok files a sed pass succeeds and rewrites every content. -/
theorem sedPass_all_ok (k v : Str) (files : List FileEnt)
    (h : ∀ f ∈ files, f.ok = true) :
    sedPass k v files =
      .ok (files.map (fun f => { f with content := breReplaceAll k v f.content })) := by
  unfold sedPass
  rw [firstBad_eq_none files h]

/-- A pass over files containing an unprocessable file fails. -/
theorem sedPass_err (k v : Str) (files : List FileEnt) (f : FileEnt)
    (hf : f ∈ files) (hbad : f.ok = false) :
    ∃ e, sedPass k v files = .error e := by
  have hs := firstBad_isSome files f hf hbad
  rcases hfind : firstBad files with _ | g
  · rw [hfind] at hs; simp at hs
  · exact ⟨g.path, by unfold sedPass; rw [hfind]⟩

theorem runPairs_nil (files : List FileEnt) (log : List Str) :
    runPairs [] files log = (files, log, false) := rfl

theorem runPairs_cons_ok (k v : Str) (rest : List (Str × Str))
    (files files2 : List FileEnt) (log : List Str)
    (h : sedPass k v files = .ok files2) :
    runPairs ((k, v) :: rest) files log =
      runPairs rest files2 (log ++ [replLine k v]) := by
  rw [runPairs, h]

theorem runPairs_cons_err (k v : Str) (rest : List (Str × Str))
    (files : List FileEnt) (log : List Str) (e : Str)
    (h : sedPass k v files = .error e) :
    runPairs ((k, v) :: rest) files log = (files, log ++ [replLine k v], true) := by
  rw [runPairs, h]

/-- The inner loop on all-ok files: never fails, logs one `Replacing` line per
pair, and leaves each file's content rewritten by the pairs in order. -/
theorem runPairs_all_ok (pairs : List (Str × Str)) :
    ∀ files log, (∀ f ∈ files, f.ok = true) →
      runPairs pairs files log =
        (substFiles pairs files,
         log ++ pairs.map (fun p => replLine p.1 p.2), false) := by
  induction pairs with
  | nil =>
    intro files log _
    simp [runPairs_nil, substFiles_nil_pairs]
  | cons p rest ih =>
    intro files log h
    rcases p with ⟨k, v⟩
    rw [runPairs_cons_ok k v rest files _ log (sedPass_all_ok k v files h)]
    have hok2 : ∀ f ∈ files.map
        (fun f => { f with content := breReplaceAll k v f.content }), f.ok = true := by
      intro f hf
      rcases List.mem_map.mp hf with ⟨f0, hf0, rfl⟩
      exact h f0 hf0
    rw [ih _ _ hok2]
    have hfiles : substFiles rest (files.map
        (fun f => { f with content := breReplaceAll k v f.content })) =
        substFiles ((k, v) :: rest) files := by
      unfold substFiles
      rw [List.map_map]
      refine List.map_congr_left (fun f _ => ?_)
      simp [Function.comp, applyPairs_cons]
    rw [hfiles]
    simp

/-- The inner loop fails when some file is unprocessable and there is at
least one pair to apply. -/
theorem runPairs_err (pairs : List (Str × Str)) (files : List FileEnt)
    (log : List Str) (f : FileEnt) (hf : f ∈ files) (hbad : f.ok = false)
    (hp : pairs ≠ []) : (runPairs pairs files log).2.2 = true := by
  cases pairs with
  | nil => exact absurd rfl hp
  | cons p rest =>
    rcases p with ⟨k, v⟩
    rcases sedPass_err k v files f hf hbad with ⟨e, he⟩
    rw [runPairs_cons_err k v rest files log e he]

-- findDir / updateDir algebra ---------------------------------------------------

theorem findDir_nil (d : Str) : findDir [] d = none := rfl

theorem findDir_cons (e : DirEnt) (es : FSys) (d : Str) :
    findDir (e :: es) d = if e.dname == d then some e else findDir es d := rfl

theorem updateDir_nil (d : Str) (files : List FileEnt) :
    updateDir [] d files = [] := rfl

theorem updateDir_cons (e : DirEnt) (es : FSys) (d : Str) (files : List FileEnt) :
    updateDir (e :: es) d files =
      if e.dname == d then { e with files := files } :: es
      else e :: updateDir es d files := rfl

theorem findDir_updateDir_self (fs : FSys) (d : Str) (de : DirEnt)
    (files : List FileEnt) (h : findDir fs d = some de) :
    findDir (updateDir fs d files) d = some { de with files := files } := by
  induction fs with
  | nil => simp [findDir_nil] at h
  | cons e es ih =>
    rw [findDir_cons] at h
    rw [updateDir_cons]
    by_cases he : (e.dname == d) = true
    · rw [if_pos he] at h ⊢
      rw [Option.some.injEq] at h
      subst h
      rw [findDir_cons, if_pos he]
    · rw [if_neg he] at h ⊢
      rw [findDir_cons, if_neg he]
      exact ih h

theorem findDir_updateDir_other (fs : FSys) (d d2 : Str)
    (files : List FileEnt) (hne : (d2 == d) = false) :
    findDir (updateDir fs d files) d2 = findDir fs d2 := by
  induction fs with
  | nil => rfl
  | cons e es ih =>
    rw [updateDir_cons]
    by_cases he : (e.dname == d) = true
    · rw [if_pos he, findDir_cons, findDir_cons]
      have hnotd2 : (e.dname == d2) = false := by
        have hed : e.dname = d := by simpa using he
        subst hed
        exact beq_eq_false_iff_ne.mpr
          (fun h => (beq_eq_false_iff_ne.mp hne) h.symm)
      show (if e.dname == d2 then some { e with files := files } else findDir es d2) =
        if e.dname == d2 then some e else findDir es d2
      rw [hnotd2]
      simp
    · rw [if_neg he, findDir_cons, findDir_cons]
      by_cases hd2 : (e.dname == d2) = true
      · rw [if_pos hd2, if_pos hd2]
      · rw [if_neg hd2, if_neg hd2]
        exact ih

/-- Updating with the directory's own files is the identity. -/
theorem updateDir_same (fs : FSys) (d : Str) (de : DirEnt)
    (h : findDir fs d = some de) : updateDir fs d de.files = fs := by
  induction fs with
  | nil => rfl
  | cons e es ih =>
    rw [findDir_cons] at h
    rw [updateDir_cons]
    by_cases he : (e.dname == d) = true
    · rw [if_pos he] at h ⊢
      rw [Option.some.injEq] at h
      rw [← h]
    · rw [if_neg he] at h ⊢
      rw [ih h]

/-- `updateDir` never changes which directories exist. -/
theorem findDir_updateDir_isSome (fs : FSys) (d d2 : Str) (files : List FileEnt) :
    (findDir (updateDir fs d files) d2).isSome = (findDir fs d2).isSome := by
  induction fs with
  | nil => rfl
  | cons e es ih =>
    rw [updateDir_cons]
    by_cases he : (e.dname == d) = true
    · rw [if_pos he, findDir_cons, findDir_cons]
      show (if e.dname == d2 then some { e with files := files } else findDir es d2).isSome =
        (if e.dname == d2 then some e else findDir es d2).isSome
      by_cases hd2 : (e.dname == d2) = true
      · rw [if_pos hd2, if_pos hd2]; rfl
      · rw [if_neg hd2, if_neg hd2]
    · rw [if_neg he, findDir_cons, findDir_cons]
      by_cases hd2 : (e.dname == d2) = true
      · rw [if_pos hd2, if_pos hd2]
      · rw [if_neg hd2, if_neg hd2]
        exact ih

/-- `updateDir` with all-ok files preserves `allOk`. -/
theorem allOk_updateDir (fs : FSys) (d : Str) (files : List FileEnt)
    (hfs : allOk fs) (hfiles : ∀ f ∈ files, f.ok = true) :
    allOk (updateDir fs d files) := by
  induction fs with
  | nil => intro de hde; simp [updateDir_nil] at hde
  | cons e es ih =>
    intro de hde
    rw [updateDir_cons] at hde
    by_cases he : (e.dname == d) = true
    · rw [if_pos he] at hde
      rcases List.mem_cons.mp hde with h | h
      · subst h; exact hfiles
      · exact hfs de (by simp [h])
    · rw [if_neg he] at hde
      rcases List.mem_cons.mp hde with h | h
      · subst h; exact hfs de (by simp)
      · exact ih (fun de2 hde2 => hfs de2 (by simp [hde2])) de h

/-- Substituted files keep their ok flags set. -/
theorem substFiles_all_ok (pairs : List (Str × Str)) (files : List FileEnt)
    (h : ∀ f ∈ files, f.ok = true) : ∀ f ∈ substFiles pairs files, f.ok = true := by
  intro f hf
  rcases List.mem_map.mp hf with ⟨f0, hf0, rfl⟩
  exact h f0 hf0

-- runRoots behaviour ------------------------------------------------------------

theorem runRoots_nil (pfx : Str) (env : List EnvVar) (st : St) :
    runRoots pfx env [] st = st := rfl

theorem runRoots_cons_missing (pfx : Str) (env : List EnvVar) (d : Str)
    (rest : List Str) (st : St) (h : findDir st.fs d = none) :
    runRoots pfx env (d :: rest) st =
      runRoots pfx env rest { st with log := st.log ++ [warnLine d] } := by
  simp only [runRoots, h]

theorem runRoots_cons_found (pfx : Str) (env : List EnvVar) (d : Str)
    (rest : List Str) (st : St) (de : DirEnt)
    (hde : findDir st.fs d = some de) (hok : ∀ f ∈ de.files, f.ok = true) :
    runRoots pfx env (d :: rest) st =
      runRoots pfx env rest
        { fs := updateDir st.fs d (substFiles (pairsOf pfx env) de.files),
          log := (st.log ++ [scanLine d])
            ++ (pairsOf pfx env).map (fun p => replLine p.1 p.2),
          envReads := st.envReads + 1,
          exit := st.exit } := by
  simp only [runRoots, hde, runPairs_all_ok (pairsOf pfx env) de.files _ hok]

/-- A directory found by `findDir` is in the file system. -/
theorem findDir_mem (fs : FSys) (d : Str) (de : DirEnt)
    (h : findDir fs d = some de) : de ∈ fs := by
  induction fs with
  | nil => simp [findDir_nil] at h
  | cons e es ih =>
    rw [findDir_cons] at h
    by_cases he : (e.dname == d) = true
    · rw [if_pos he, Option.some.injEq] at h
      subst h
      simp
    · rw [if_neg he] at h
      simp [ih h]

/-- The `env | grep` pipeline is executed exactly once per existing root
(provided no I/O failure aborts the run early, which the all-ok hypothesis
rules out). -/
theorem runRoots_envReads (pfx : Str) (env : List EnvVar) :
    ∀ roots (st : St), allOk st.fs →
      (runRoots pfx env roots st).envReads =
        st.envReads + roots.countP (fun d => (findDir st.fs d).isSome) := by
  intro roots
  induction roots with
  | nil => intro st _; simp [runRoots_nil]
  | cons d rest ih =>
    intro st hok
    rcases hde : findDir st.fs d with _ | de
    · rw [runRoots_cons_missing pfx env d rest st hde]
      rw [ih { st with log := st.log ++ [warnLine d] } hok]
      simp [List.countP_cons, hde]
    · have hdeok : ∀ f ∈ de.files, f.ok = true := hok de (findDir_mem _ _ _ hde)
      rw [runRoots_cons_found pfx env d rest st de hde hdeok]
      have hok2 : allOk (updateDir st.fs d (substFiles (pairsOf pfx env) de.files)) :=
        allOk_updateDir _ _ _ hok (substFiles_all_ok _ _ hdeok)
      rw [ih _ hok2]
      have hcount :
          rest.countP (fun x =>
            (findDir (updateDir st.fs d (substFiles (pairsOf pfx env) de.files)) x).isSome)
          = rest.countP (fun x => (findDir st.fs x).isSome) := by
        refine List.countP_congr (fun x _ => ?_)
        rw [findDir_updateDir_isSome]
      show st.envReads + 1 + _ = _
      rw [hcount]
      simp [List.countP_cons, hde]
      omega

/-- Scanning an existing directory with an empty match set: the directory is
enumerated but nothing is replaced and nothing can fail. -/
theorem runRoots_cons_found_no_pairs (pfx : Str) (env : List EnvVar) (d : Str)
    (rest : List Str) (st : St) (de : DirEnt)
    (hpairs : pairsOf pfx env = []) (hde : findDir st.fs d = some de) :
    runRoots pfx env (d :: rest) st =
      runRoots pfx env rest
        { st with log := st.log ++ [scanLine d], envReads := st.envReads + 1 } := by
  simp only [runRoots, hde, hpairs, runPairs_nil]
  rw [updateDir_same st.fs d de hde]

/-- With an empty match set the run changes nothing: every directory entry is
left as it is, no sed pass runs, the log records only the scan/warn lines, and
the exit disposition is untouched. -/
theorem runRoots_no_pairs (pfx : Str) (env : List EnvVar)
    (hpairs : pairsOf pfx env = []) :
    ∀ roots (st : St),
      runRoots pfx env roots st =
        { st with
          log := st.log ++ roots.map (fun d =>
            if (findDir st.fs d).isSome then scanLine d else warnLine d),
          envReads :=
            st.envReads + roots.countP (fun d => (findDir st.fs d).isSome) } := by
  intro roots
  induction roots with
  | nil => intro st; simp [runRoots_nil]
  | cons d rest ih =>
    intro st
    rcases hde : findDir st.fs d with _ | de
    · rw [runRoots_cons_missing pfx env d rest st hde]
      rw [ih { st with log := st.log ++ [warnLine d] }]
      simp [hde, List.countP_cons]
    · rw [runRoots_cons_found_no_pairs pfx env d rest st de hpairs hde]
      rw [ih { st with log := st.log ++ [scanLine d], envReads := st.envReads + 1 }]
      simp [hde, List.countP_cons]
      omega

/-- A run that reaches a directory containing an unprocessable file while at
least one pair is to be applied ends with an I/O error. -/
theorem runRoots_bad_file (pfx : Str) (env : List EnvVar) (d : Str)
    (de : DirEnt) (f : FileEnt) (hf : f ∈ de.files) (hbad : f.ok = false)
    (hpairs : pairsOf pfx env ≠ []) :
    ∀ roots (st : St), d ∈ roots → findDir st.fs d = some de →
      (runRoots pfx env roots st).exit = ExitKind.ioError := by
  intro roots
  induction roots with
  | nil => intro st hmem; simp at hmem
  | cons r rest ih =>
    intro st hmem hde
    rcases List.mem_cons.mp hmem with heq | hmem2
    · -- the bad directory is at the head: the first pair's sed pass fails
      subst heq
      simp only [runRoots, hde]
      rcases hrp : runPairs (pairsOf pfx env) de.files
          (st.log ++ [scanLine d]) with ⟨files2, log2, b⟩
      have hb : b = true := by
        have := runPairs_err (pairsOf pfx env) de.files
          (st.log ++ [scanLine d]) f hf hbad hpairs
        rw [hrp] at this
        exact this
      subst hb
      rfl
    · rcases hre : findDir st.fs r with _ | re
      · rw [runRoots_cons_missing pfx env r rest st hre]
        exact ih { st with log := st.log ++ [warnLine r] } hmem2 hde
      · simp only [runRoots, hre]
        rcases hrp : runPairs (pairsOf pfx env) re.files
            (st.log ++ [scanLine r]) with ⟨files2, log2, b⟩
        cases b with
        | true => rfl
        | false =>
          by_cases hdr : (d == r) = true
          · -- the head is the bad directory itself: its pass cannot succeed
            have hdr2 : d = r := by simpa using hdr
            subst hdr2
            rw [hde] at hre
            rw [Option.some.injEq] at hre
            subst hre
            have := runPairs_err (pairsOf pfx env) de.files
              (st.log ++ [scanLine d]) f hf hbad hpairs
            rw [hrp] at this
            simp at this
          · have hst2 : findDir (updateDir st.fs r files2) d = some de := by
              rw [findDir_updateDir_other st.fs r d files2 (by simpa using hdr)]
              exact hde
            exact ih ⟨updateDir st.fs r files2, log2, st.envReads + 1, st.exit⟩
              hmem2 hst2

/-- With both control variables present and nonempty, the run is the root
loop started on the whitespace-split fields of `ASSET_DIRS`. -/
theorem run_valid (cfg : Cfg) (env : List EnvVar) (fs : FSys) (p ds : Str)
    (hp : cfg.appPfx = some p) (hpne : p ≠ [])
    (hds : cfg.assetDirs = some ds) (hdsne : ds ≠ []) :
    run cfg env fs = runRoots p env (splitWs ds) ⟨fs, [], 0, ExitKind.ok⟩ := by
  rcases cfg with ⟨op, od⟩
  change op = some p at hp
  subst hp
  change od = some ds at hds
  subst hds
  simp only [run]
  rw [if_neg hpne, if_neg hdsne]

-- Claim theorems -----------------------------------------------------------------

/-- C2: if the prefix variable or the roots variable is unset or empty, the
run fails immediately with a configuration error before any root is scanned
(empty log, zero environment enumerations) and modifies zero files. -/
theorem c2_config_error (cfg : Cfg) (env : List EnvVar) (fs : FSys)
    (h : cfg.appPfx = none ∨ cfg.appPfx = some [] ∨
         cfg.assetDirs = none ∨ cfg.assetDirs = some []) :
    run cfg env fs =
      { fs := fs, log := [], envReads := 0, exit := ExitKind.configError } := by
  rcases cfg with ⟨op, od⟩
  rcases op with _ | p
  · rfl
  · rcases h with h | h | h | h
    · simp at h
    · have hpe : p = [] := by simpa using h
      subst hpe
      rfl
    · have hod : od = none := by simpa using h
      subst hod
      by_cases hp : p = []
      · subst hp; rfl
      · simp only [run]
        rw [if_neg hp]
    · have hod : od = some [] := by simpa using h
      subst hod
      by_cases hp : p = []
      · subst hp; rfl
      · simp only [run]
        rw [if_neg hp]
        simp

/-- C3: if some file of an existing configured root cannot be processed and
there is at least one substitution pair, the whole invocation aborts with an
I/O error (nonzero exit), instead of completing. -/
theorem c3_io_error (cfg : Cfg) (env : List EnvVar) (fs : FSys)
    (p ds d : Str) (de : DirEnt) (f : FileEnt)
    (hp : cfg.appPfx = some p) (hpne : p ≠ [])
    (hds : cfg.assetDirs = some ds) (hdsne : ds ≠ [])
    (hd : d ∈ splitWs ds) (hde : findDir fs d = some de)
    (hf : f ∈ de.files) (hbad : f.ok = false)
    (hpairs : pairsOf p env ≠ []) :
    (run cfg env fs).exit = ExitKind.ioError := by
  rw [run_valid cfg env fs p ds hp hpne hds hdsne]
  exact runRoots_bad_file p env d de f hf hbad hpairs (splitWs ds)
    ⟨fs, [], 0, ExitKind.ok⟩ hd hde

/-- C4: with roots `[r1, r2]` where `r1` is missing and `r2` exists (with
processable files), the run exits successfully, warns about `r1`, leaves `r1`
alone, and performs the full substitution in `r2`. -/
theorem c4_missing_root_tolerance (cfg : Cfg) (env : List EnvVar) (fs : FSys)
    (p ds r1 r2 : Str) (de : DirEnt)
    (hp : cfg.appPfx = some p) (hpne : p ≠ [])
    (hds : cfg.assetDirs = some ds) (hdsne : ds ≠ [])
    (hsplit : splitWs ds = [r1, r2])
    (h1 : findDir fs r1 = none) (h2 : findDir fs r2 = some de)
    (hok : ∀ f ∈ de.files, f.ok = true) :
    (run cfg env fs).exit = ExitKind.ok ∧
    warnLine r1 ∈ (run cfg env fs).log ∧
    findDir (run cfg env fs).fs r2 =
      some { de with files := substFiles (pairsOf p env) de.files } ∧
    findDir (run cfg env fs).fs r1 = none := by
  have hrun : run cfg env fs =
      { fs := updateDir fs r2 (substFiles (pairsOf p env) de.files),
        log := (([] ++ [warnLine r1] ++ [scanLine r2]))
          ++ (pairsOf p env).map (fun q => replLine q.1 q.2),
        envReads := 1,
        exit := ExitKind.ok } := by
    rw [run_valid cfg env fs p ds hp hpne hds hdsne, hsplit]
    rw [runRoots_cons_missing p env r1 [r2] _ h1]
    rw [runRoots_cons_found p env r2 [] _ de h2 hok]
    rw [runRoots_nil]
  have hne : (r1 == r2) = false := by
    refine beq_eq_false_iff_ne.mpr (fun h => ?_)
    rw [h, h2] at h1
    simp at h1
  rw [hrun]
  refine ⟨rfl, by simp, ?_, ?_⟩
  · exact findDir_updateDir_self fs r2 de _ h2
  · show findDir (updateDir fs r2 _) r1 = none
    rw [findDir_updateDir_other fs r2 r1 _ hne]
    exact h1

/-- C5 (amended): the environment listing is enumerated once per existing
root — not once per invocation, and not per file.  (Each enumeration yields
the same pair list `pairsOf p env`, since the run does not modify its own
environment, so the pairs applied to every root nevertheless coincide.) -/
theorem c5_env_read_per_root (cfg : Cfg) (env : List EnvVar) (fs : FSys)
    (p ds : Str)
    (hp : cfg.appPfx = some p) (hpne : p ≠ [])
    (hds : cfg.assetDirs = some ds) (hdsne : ds ≠ [])
    (hok : allOk fs) :
    (run cfg env fs).envReads =
      (splitWs ds).countP (fun d => (findDir fs d).isSome) := by
  rw [run_valid cfg env fs p ds hp hpne hds hdsne]
  rw [runRoots_envReads p env (splitWs ds) ⟨fs, [], 0, ExitKind.ok⟩ hok]
  simp

/-- C7 (amended): an empty match set is not an error: the run exits
successfully, performs zero substitutions (every file under every root is
left byte-identical), and logs exactly one scanning or warning line per
configured root — but no diagnostic reporting that zero keys were found. -/
theorem c7_empty_match_set (cfg : Cfg) (env : List EnvVar) (fs : FSys)
    (p ds : Str)
    (hp : cfg.appPfx = some p) (hpne : p ≠ [])
    (hds : cfg.assetDirs = some ds) (hdsne : ds ≠ [])
    (hpairs : pairsOf p env = []) :
    (run cfg env fs).exit = ExitKind.ok ∧
    (run cfg env fs).fs = fs ∧
    (run cfg env fs).log = (splitWs ds).map (fun d =>
      if (findDir fs d).isSome then scanLine d else warnLine d) := by
  rw [run_valid cfg env fs p ds hp hpne hds hdsne]
  rw [runRoots_no_pairs p env hpairs (splitWs ds) ⟨fs, [], 0, ExitKind.ok⟩]
  exact ⟨rfl, rfl, by simp⟩

-- Support for C10 ---------------------------------------------------------------

/-- `IFS='=' read` on a line `key=value` with an `=`-free key recovers the
key and the full remainder. -/
theorem splitFirstEq_key_value :
    ∀ (k : Str), (∀ x ∈ k, x ≠ '=') → ∀ v : Str,
      splitFirstEq (k ++ ('=' :: v)) = (k, v) := by
  intro k
  induction k with
  | nil =>
    intro _ v
    simp [splitFirstEq, List.takeWhile_cons, List.dropWhile_cons]
  | cons a ks ih =>
    intro hk v
    have ha : (a != '=') = true := by simpa using hk a (by simp)
    have ihv := ih (fun x hx => hk x (by simp [hx])) v
    simp only [splitFirstEq] at ihv ⊢
    rw [List.cons_append, List.takeWhile_cons, List.dropWhile_cons, ha]
    rw [Prod.mk.injEq] at ihv ⊢
    simp only [if_true]
    exact ⟨by rw [ihv.1], by rw [ihv.2]⟩

/-- A nonempty pattern does not match the empty line. -/
theorem breMatchPre_nil_right (p : Str) (hp : p ≠ []) :
    breMatchPre p [] = false := by
  cases p with
  | nil => exact absurd rfl hp
  | cons a ps => rfl

-- Remaining claim theorems --------------------------------------------------------

/-- C6 (amended): substitutions for two keys commute when keys and values are
nonempty, the keys share no character, and each key shares no character with
the other value (conditions ruling out overlap and occurrence creation, which
the counterexample shows are otherwise possible even for keys neither of
which is a substring of the other). -/
theorem c6_substitution_comm (k1 v1 k2 v2 s : Str)
    (hk1 : k1 ≠ []) (hk2 : k2 ≠ []) (hv1 : v1 ≠ []) (hv2 : v2 ≠ [])
    (h12 : ∀ x ∈ k1, x ∉ k2)
    (h2v1 : ∀ x ∈ k2, x ∉ v1)
    (h1v2 : ∀ x ∈ k1, x ∉ v2) :
    replaceAll k2 v2 (replaceAll k1 v1 s) = replaceAll k1 v1 (replaceAll k2 v2 s) :=
  replaceAll_comm_aux k1 v1 k2 v2 hk1 hk2 hv1 hv2 h12 h2v1 h1v2 s.length s le_rfl

/-- C8 (amended): `grep` and `sed` interpret the prefix and the keys as
basic-regular-expression patterns, not literals; for patterns containing no
metacharacter the regex match coincides with the byte-for-byte literal match,
so selection and substitution are effectively literal exactly then. -/
theorem c8_plain_pattern_literal (p v s : Str) (hp : plainPat p) :
    breMatchPre p s = isPre p s ∧ breReplaceAll p v s = replaceAll p v s :=
  ⟨breMatchPre_eq_isPre p s hp,
   breReplaceAll_eq_replaceAll p v hp s.length s le_rfl⟩

/-- C9: the roots setting is field-split on unquoted whitespace with no
quoting mechanism: a configured path containing a space becomes two separate
roots, and no root the loop ever iterates over can contain a space. -/
theorem c9_roots_split_on_whitespace (p a b : Str) (hpne : p ≠ [])
    (ha : a ≠ []) (hb : b ≠ [])
    (haw : ∀ x ∈ a, wsChar x = false) (hbw : ∀ x ∈ b, wsChar x = false) :
    splitWs (a ++ (' ' :: b)) = [a, b] ∧
    (∀ s r, ' ' ∈ r → r ∉ splitWs s) ∧
    (∀ (env : List EnvVar) (fs : FSys),
      run ⟨some p, some (a ++ (' ' :: b))⟩ env fs =
        runRoots p env [a, b] ⟨fs, [], 0, ExitKind.ok⟩) := by
  have hsplit : splitWs (a ++ (' ' :: b)) = [a, b] := splitWs_space a b ha hb haw hbw
  refine ⟨hsplit, ?_, ?_⟩
  · intro s r hr hmem
    have := splitWs_no_ws s r hmem ' ' hr
    simp [wsChar] at this
  · intro env fs
    have hne : a ++ (' ' :: b) ≠ [] := by
      intro h
      exact ha (List.append_eq_nil.mp h).1
    rw [run_valid ⟨some p, some (a ++ (' ' :: b))⟩ env fs p (a ++ (' ' :: b))
      rfl hpne rfl hne, hsplit]

/-- C10: pairs are parsed line-by-line from the `env` listing: a matching
variable whose value embeds a newline followed by `key2=value2` contributes
the pre-newline part as its replacement, and the embedded line — which also
begins with the prefix — is parsed as an additional key/value pair. -/
theorem c10_multiline_value_pairs (pfx k1 v1 k2 v2 : Str)
    (hpfx : pfx ≠ []) (hplain : plainPat pfx)
    (hm1 : isPre pfx k1 = true) (hm2 : isPre pfx k2 = true)
    (hk1eq : ∀ x ∈ k1, x ≠ '=') (hk2eq : ∀ x ∈ k2, x ≠ '=')
    (hk1nl : '\n' ∉ k1) (hk2nl : '\n' ∉ k2)
    (hv1nl : '\n' ∉ v1) (hv2nl : '\n' ∉ v2) :
    pairsOf pfx [⟨k1, v1 ++ ('\n' :: (k2 ++ ('=' :: v2)))⟩] = [(k1, v1), (k2, v2)] := by
  have htext : envText [⟨k1, v1 ++ ('\n' :: (k2 ++ ('=' :: v2)))⟩] =
      (k1 ++ ('=' :: v1)) ++ ('\n' :: ((k2 ++ ('=' :: v2)) ++ ('\n' :: []))) := by
    simp [envText, List.append_assoc]
  have hL1nl : '\n' ∉ k1 ++ ('=' :: v1) := by
    intro h
    rcases List.mem_append.mp h with h | h
    · exact hk1nl h
    · rcases List.mem_cons.mp h with h | h
      · simp at h
      · exact hv1nl h
  have hL2nl : '\n' ∉ k2 ++ ('=' :: v2) := by
    intro h
    rcases List.mem_append.mp h with h | h
    · exact hk2nl h
    · rcases List.mem_cons.mp h with h | h
      · simp at h
      · exact hv2nl h
  have hlines : splitLines (envText [⟨k1, v1 ++ ('\n' :: (k2 ++ ('=' :: v2)))⟩]) =
      [k1 ++ ('=' :: v1), k2 ++ ('=' :: v2), []] := by
    rw [htext, splitLines_append _ _ hL1nl, splitLines_append _ _ hL2nl,
      splitLines_nil]
  have hm1' : breMatchPre pfx (k1 ++ ('=' :: v1)) = true := by
    rw [breMatchPre_eq_isPre _ _ hplain]
    exact isPre_append_right pfx k1 _ hm1
  have hm2' : breMatchPre pfx (k2 ++ ('=' :: v2)) = true := by
    rw [breMatchPre_eq_isPre _ _ hplain]
    exact isPre_append_right pfx k2 _ hm2
  unfold pairsOf
  rw [hlines]
  rw [List.filter_cons, List.filter_cons, List.filter_cons, List.filter_nil]
  rw [hm1', hm2', breMatchPre_nil_right pfx hpfx]
  simp only [if_true]
  rw [List.map_cons, List.map_cons]
  rw [splitFirstEq_key_value k1 hk1eq v1, splitFirstEq_key_value k2 hk2eq v2]
  simp

-- Counterexamples ------------------------------------------------------------------

/-- C5 (counterexample): the environment match set is not enumerated exactly
once per invocation: with two existing roots the `env | grep` pipeline runs
twice. -/
theorem c5_counterexample :
    (run ⟨some ['P', '_'], some ['/', 'a', ' ', '/', 'b']⟩ []
        [⟨['/', 'a'], []⟩, ⟨['/', 'b'], []⟩]).envReads = 2 ∧
    ¬ (run ⟨some ['P', '_'], some ['/', 'a', ' ', '/', 'b']⟩ []
        [⟨['/', 'a'], []⟩, ⟨['/', 'b'], []⟩]).envReads = 1 := by
  decide

/-- C6 (counterexample): order-independence fails as stated, with keys neither
of which is a substring of the other.  First instance: `K1 = A -> B`,
`K2 = B -> C` on file `A` (a value containing the other key); second instance:
`K1 = AB -> x`, `K2 = BA -> y` on file `ABA` (overlapping keys), where neither
value mentions either key and both are nonempty. -/
theorem c6_counterexample :
    (isSub ['A'] ['B'] = false ∧ isSub ['B'] ['A'] = false ∧
      replaceAll ['B'] ['C'] (replaceAll ['A'] ['B'] ['A']) ≠
        replaceAll ['A'] ['B'] (replaceAll ['B'] ['C'] ['A'])) ∧
    (isSub ['A', 'B'] ['B', 'A'] = false ∧ isSub ['B', 'A'] ['A', 'B'] = false ∧
      replaceAll ['B', 'A'] ['y'] (replaceAll ['A', 'B'] ['x'] ['A', 'B', 'A']) ≠
        replaceAll ['A', 'B'] ['x'] (replaceAll ['B', 'A'] ['y'] ['A', 'B', 'A'])) := by
  refine ⟨⟨by decide, by decide, ?_⟩, ⟨by decide, by decide, ?_⟩⟩
  · simp [replaceAll, isPre]
  · simp [replaceAll, isPre]

/-- C7 (counterexample): with an existing root and no matching key the run
logs exactly the per-root scanning line and nothing else — in particular no
diagnostic reporting that zero keys were found. -/
theorem c7_counterexample :
    (run ⟨some ['P', '_'], some ['/', 's']⟩ [⟨['H'], ['x']⟩]
        [⟨['/', 's'], [⟨['f'], ['P', '_', 'X'], true⟩]⟩]).log
      = [scanLine ['/', 's']] ∧
    (run ⟨some ['P', '_'], some ['/', 's']⟩ [⟨['H'], ['x']⟩]
        [⟨['/', 's'], [⟨['f'], ['P', '_', 'X'], true⟩]⟩]).exit = ExitKind.ok := by
  decide

/-- C8 (counterexample): the key and the prefix are not matched literally:
the prefix pattern `A.` (regex dot) selects the name `AXB` although `A.` is
not a literal prefix of it, and the sed key `P.` rewrites the file `PQ`
although `P.` never occurs literally in it. -/
theorem c8_counterexample :
    breMatchPre ['A', '.'] ['A', 'X', 'B'] = true ∧
    isPre ['A', '.'] ['A', 'X', 'B'] = false ∧
    breReplaceAll ['P', '.'] ['z'] ['P', 'Q'] = ['z'] ∧
    isSub ['P', '.'] ['P', 'Q'] = false := by
  refine ⟨by decide, by decide, ?_, by decide⟩
  simp [breReplaceAll, breMatchPre]

-- Witnesses ------------------------------------------------------------------------

/-- C2 witness: an unset prefix on a concrete invocation. -/
theorem c2_witness :
    ((⟨none, some ['/', 's']⟩ : Cfg).appPfx = none ∨
     (⟨none, some ['/', 's']⟩ : Cfg).appPfx = some [] ∨
     (⟨none, some ['/', 's']⟩ : Cfg).assetDirs = none ∨
     (⟨none, some ['/', 's']⟩ : Cfg).assetDirs = some []) ∧
    run ⟨none, some ['/', 's']⟩ [] [] =
      { fs := [], log := [], envReads := 0, exit := ExitKind.configError } :=
  ⟨Or.inl rfl, c2_config_error ⟨none, some ['/', 's']⟩ [] [] (Or.inl rfl)⟩

/-- C3 witness: one existing root `/a` holding an unwritable file, one
matching pair: the run exits with an I/O error. -/
theorem c3_witness :
    pairsOf ['P', '_'] [⟨['P', '_', 'X'], ['v']⟩] ≠ [] ∧
    (run ⟨some ['P', '_'], some ['/', 'a']⟩ [⟨['P', '_', 'X'], ['v']⟩]
        [⟨['/', 'a'], [⟨['f'], ['P', '_', 'X'], false⟩]⟩]).exit
      = ExitKind.ioError :=
  ⟨by decide,
   c3_io_error ⟨some ['P', '_'], some ['/', 'a']⟩ [⟨['P', '_', 'X'], ['v']⟩]
     [⟨['/', 'a'], [⟨['f'], ['P', '_', 'X'], false⟩]⟩]
     ['P', '_'] ['/', 'a'] ['/', 'a']
     ⟨['/', 'a'], [⟨['f'], ['P', '_', 'X'], false⟩]⟩
     ⟨['f'], ['P', '_', 'X'], false⟩
     rfl (by decide) rfl (by decide) (by decide) (by decide) (by decide)
     (by decide) (by decide)⟩

/-- C4 witness: roots `/a /b` with `/a` missing and `/b` present. -/
theorem c4_witness :
    splitWs ['/', 'a', ' ', '/', 'b'] = [['/', 'a'], ['/', 'b']] ∧
    ((run ⟨some ['P'], some ['/', 'a', ' ', '/', 'b']⟩ []
        [⟨['/', 'b'], [⟨['f'], ['P', 'X'], true⟩]⟩]).exit = ExitKind.ok ∧
     warnLine ['/', 'a'] ∈ (run ⟨some ['P'], some ['/', 'a', ' ', '/', 'b']⟩ []
        [⟨['/', 'b'], [⟨['f'], ['P', 'X'], true⟩]⟩]).log ∧
     findDir (run ⟨some ['P'], some ['/', 'a', ' ', '/', 'b']⟩ []
        [⟨['/', 'b'], [⟨['f'], ['P', 'X'], true⟩]⟩]).fs ['/', 'b'] =
       some ⟨['/', 'b'], substFiles (pairsOf ['P'] [])
         [⟨['f'], ['P', 'X'], true⟩]⟩ ∧
     findDir (run ⟨some ['P'], some ['/', 'a', ' ', '/', 'b']⟩ []
        [⟨['/', 'b'], [⟨['f'], ['P', 'X'], true⟩]⟩]).fs ['/', 'a'] = none) :=
  ⟨by decide,
   c4_missing_root_tolerance ⟨some ['P'], some ['/', 'a', ' ', '/', 'b']⟩ []
     [⟨['/', 'b'], [⟨['f'], ['P', 'X'], true⟩]⟩]
     ['P'] ['/', 'a', ' ', '/', 'b'] ['/', 'a'] ['/', 'b']
     ⟨['/', 'b'], [⟨['f'], ['P', 'X'], true⟩]⟩
     rfl (by decide) rfl (by decide) (by decide) (by decide) (by decide)
     (by decide)⟩

/-- C5 witness: three configured roots of which two exist: the environment is
enumerated twice. -/
theorem c5_witness :
    allOk [⟨['/', 'a'], []⟩, ⟨['/', 'c'], []⟩] ∧
    (run ⟨some ['P'], some ['/', 'a', ' ', '/', 'b', ' ', '/', 'c']⟩ []
        [⟨['/', 'a'], []⟩, ⟨['/', 'c'], []⟩]).envReads = 2 :=
  ⟨by decide,
   (c5_env_read_per_root ⟨some ['P'], some ['/', 'a', ' ', '/', 'b', ' ', '/', 'c']⟩
     [] [⟨['/', 'a'], []⟩, ⟨['/', 'c'], []⟩]
     ['P'] ['/', 'a', ' ', '/', 'b', ' ', '/', 'c']
     rfl (by decide) rfl (by decide) (by decide)).trans (by decide)⟩

/-- C6 witness: the amended commutativity at `K -> x`, `L -> y` on file `aKL`. -/
theorem c6_witness :
    ((['K'] : Str) ≠ [] ∧ (['L'] : Str) ≠ [] ∧ (['x'] : Str) ≠ [] ∧
      (['y'] : Str) ≠ [] ∧ (∀ c ∈ (['K'] : Str), c ∉ (['L'] : Str))) ∧
    replaceAll ['L'] ['y'] (replaceAll ['K'] ['x'] ['a', 'K', 'L']) =
      replaceAll ['K'] ['x'] (replaceAll ['L'] ['y'] ['a', 'K', 'L']) :=
  ⟨⟨by decide, by decide, by decide, by decide, by decide⟩,
   c6_substitution_comm ['K'] ['x'] ['L'] ['y'] ['a', 'K', 'L']
     (by decide) (by decide) (by decide) (by decide)
     (by decide) (by decide) (by decide)⟩

/-- C7 witness: empty match set on a concrete run: success, untouched files,
and only the scan/warn lines in the log. -/
theorem c7_witness :
    pairsOf ['P', '_'] [⟨['H'], ['x']⟩] = [] ∧
    ((run ⟨some ['P', '_'], some ['/', 's']⟩ [⟨['H'], ['x']⟩]
        [⟨['/', 's'], [⟨['f'], ['P', '_', 'X'], true⟩]⟩]).exit = ExitKind.ok ∧
     (run ⟨some ['P', '_'], some ['/', 's']⟩ [⟨['H'], ['x']⟩]
        [⟨['/', 's'], [⟨['f'], ['P', '_', 'X'], true⟩]⟩]).fs =
       [⟨['/', 's'], [⟨['f'], ['P', '_', 'X'], true⟩]⟩] ∧
     (run ⟨some ['P', '_'], some ['/', 's']⟩ [⟨['H'], ['x']⟩]
        [⟨['/', 's'], [⟨['f'], ['P', '_', 'X'], true⟩]⟩]).log =
       (splitWs ['/', 's']).map (fun d =>
         if (findDir [⟨['/', 's'], [⟨['f'], ['P', '_', 'X'], true⟩]⟩] d).isSome
         then scanLine d else warnLine d)) :=
  ⟨by decide,
   c7_empty_match_set ⟨some ['P', '_'], some ['/', 's']⟩ [⟨['H'], ['x']⟩]
     [⟨['/', 's'], [⟨['f'], ['P', '_', 'X'], true⟩]⟩]
     ['P', '_'] ['/', 's'] rfl (by decide) rfl (by decide) (by decide)⟩

/-- C8 witness: a metacharacter-free pattern is matched literally. -/
theorem c8_witness :
    plainPat ['P', '_'] ∧
    (breMatchPre ['P', '_'] ['P', '_', 'A'] = isPre ['P', '_'] ['P', '_', 'A'] ∧
     breReplaceAll ['P', '_'] ['z'] ['P', '_', 'A'] =
       replaceAll ['P', '_'] ['z'] ['P', '_', 'A']) :=
  ⟨by decide, c8_plain_pattern_literal ['P', '_'] ['z'] ['P', '_', 'A'] (by decide)⟩

/-- C9 witness: the configured root `/my dir` is split into the two roots
`/my` and `dir`. -/
theorem c9_witness :
    splitWs (['/', 'm', 'y'] ++ (' ' :: ['d', 'i', 'r'])) =
      [['/', 'm', 'y'], ['d', 'i', 'r']] ∧
    (∀ s r, ' ' ∈ r → r ∉ splitWs s) ∧
    (∀ (env : List EnvVar) (fs : FSys),
      run ⟨some ['P'], some (['/', 'm', 'y'] ++ (' ' :: ['d', 'i', 'r']))⟩ env fs =
        runRoots ['P'] env [['/', 'm', 'y'], ['d', 'i', 'r']]
          ⟨fs, [], 0, ExitKind.ok⟩) :=
  c9_roots_split_on_whitespace ['P'] ['/', 'm', 'y'] ['d', 'i', 'r']
    (by decide) (by decide) (by decide) (by decide) (by decide)

/-- C10 witness: the variable `P_A` whose value is `x` + newline + `P_B=y`
yields the two pairs `(P_A, x)` and `(P_B, y)`. -/
theorem c10_witness :
    isPre ['P', '_'] ['P', '_', 'A'] = true ∧
    pairsOf ['P', '_']
        [⟨['P', '_', 'A'], ['x'] ++ ('\n' :: (['P', '_', 'B'] ++ ('=' :: ['y'])))⟩] =
      [(['P', '_', 'A'], ['x']), (['P', '_', 'B'], ['y'])] :=
  ⟨by decide,
   c10_multiline_value_pairs ['P', '_'] ['P', '_', 'A'] ['x'] ['P', '_', 'B'] ['y']
     (by decide) (by decide) (by decide) (by decide) (by decide) (by decide)
     (by decide) (by decide) (by decide) (by decide)⟩
